import Mathlib

/-!
Verification of `src/recipe/static/recipe/ingredientsmenu.js`.

The script runs on document ready. It defines two constant icon URLs,
sets every `.update-on-expand` toggle's sibling-descendant `.update-image`
elements to the collapsed icon, and binds two event handlers:
on `show.bs.collapse` it calls `updateImage($(this), EXPANDED_SRC)`, and on
`hide.bs.collapse` it calls `updateImage($(this), COLLAPSED_SRC)`, where

  function updateImage(div, src) {
    div.siblings().find(".update-image").attr("src", src);
  }

We model the DOM as a finite rose tree of elements, each carrying a node
identity, a class list, an attribute list and children.  jQuery's
`siblings()` is "the other children of the parent", `find(".update-image")`
is "strict descendants bearing class update-image", and `attr("src", src)`
writes the `src` attribute on every matched element.
-/

/-- A DOM element: node identity, class list, attribute list, children. -/
inductive Dom where
  | node (id : Nat) (classes : List String) (attrs : List (String × String)) (children : List Dom)

/-- Node identity of an element (models physical DOM-node identity). -/
def Dom.id : Dom → Nat
  | .node i _ _ _ => i

/-- Class list of an element. -/
def Dom.classes : Dom → List String
  | .node _ cs _ _ => cs

/-- Attribute list of an element. -/
def Dom.attrs : Dom → List (String × String)
  | .node _ _ ats _ => ats

/-- Children of an element. -/
def Dom.children : Dom → List Dom
  | .node _ _ _ ch => ch

/-- `COLLAPSED_SRC` constant from the script (the "add" icon). -/
def COLLAPSED_SRC : String :=
  "http://icons.iconarchive.com/icons/awicons/vista-artistic/128/add-icon.png"

/-- `EXPANDED_SRC` constant from the script (the "minus" icon). -/
def EXPANDED_SRC : String :=
  "https://cdn1.iconfinder.com/data/icons/basic-ui-elements-color/700/07_minus-128.png"

/-- jQuery `.attr(key, v)` on one element's attribute list: replace the
value of `key` if present, otherwise append it. -/
def setAttr : List (String × String) → String → String → List (String × String)
  | [], key, v => [(key, v)]
  | (k, w) :: rest, key, v =>
    if k = key then (key, v) :: rest else (k, w) :: setAttr rest key v

/-- Read an attribute value from an attribute list (first occurrence). -/
def lookupAttr : List (String × String) → String → Option String
  | [], _ => none
  | (k, w) :: rest, key => if k = key then some w else lookupAttr rest key

mutual

/-- `$(node).find(".update-image").attr("src", url)` extended to the node
itself: set `src` on this element if it bears class `update-image`, and on
all matching descendants. -/
def setSrcAt (url : String) : Dom → Dom
  | .node i cs ats ch =>
    .node i cs (if "update-image" ∈ cs then setAttr ats "src" url else ats)
      (setSrcList url ch)

/-- `setSrcAt` applied to each element of a list. -/
def setSrcList (url : String) : List Dom → List Dom
  | [] => []
  | d :: ds => setSrcAt url d :: setSrcList url ds

end

/-- `$(d).find(".update-image").attr("src", url)`: set `src` on every
element with class `update-image` that is a strict descendant of `d`
(jQuery `find` does not match the element itself). -/
def setSrcBelow (url : String) : Dom → Dom
  | .node i cs ats ch => .node i cs ats (setSrcList url ch)

/-- One child of the parent of the target: the target itself is left
alone (it is not its own sibling); every other child gets
`find(".update-image").attr("src", url)` applied. -/
def updSiblings (tid : Nat) (url : String) : List Dom → List Dom
  | [] => []
  | d :: ds =>
    (if d.id = tid then d else setSrcBelow url d) :: updSiblings tid url ds

/-- Node identities of the elements of a list. -/
def childIds : List Dom → List Nat
  | [] => []
  | d :: ds => d.id :: childIds ds

mutual

/-- `updateImage($(target), url)` as a transformation of the whole
document: at the parent whose children contain the target, rewrite the
siblings with `updSiblings`; elsewhere descend.  If the target is absent
(or is the root, which has no parent), nothing changes. -/
def updateImageGo (tid : Nat) (url : String) : Dom → Dom
  | .node i cs ats ch =>
    if tid ∈ childIds ch then .node i cs ats (updSiblings tid url ch)
    else .node i cs ats (updateImageGoList tid url ch)

/-- `updateImageGo` applied to each element of a list. -/
def updateImageGoList (tid : Nat) (url : String) : List Dom → List Dom
  | [] => []
  | d :: ds => updateImageGo tid url d :: updateImageGoList tid url ds

end

/-- The script's `updateImage(div, src)` for a single target element,
identified by its node identity. -/
def updateImage (dom : Dom) (tid : Nat) (src : String) : Dom :=
  updateImageGo tid src dom

/-- The `show.bs.collapse` handler: `updateImage($(this), EXPANDED_SRC)`. -/
def onShow (dom : Dom) (tid : Nat) : Dom :=
  updateImage dom tid EXPANDED_SRC

/-- The `hide.bs.collapse` handler: `updateImage($(this), COLLAPSED_SRC)`. -/
def onHide (dom : Dom) (tid : Nat) : Dom :=
  updateImage dom tid COLLAPSED_SRC

/-- An expand (`show.bs.collapse`) or collapse (`hide.bs.collapse`) event
delivered to the toggle element with the given node identity. -/
inductive Event where
  | expandEv (tid : Nat)
  | collapseEv (tid : Nat)

/-- The element an event is delivered to. -/
def eventTarget : Event → Nat
  | .expandEv t => t
  | .collapseEv t => t

/-- The URL the corresponding handler writes. -/
def eventSrc : Event → String
  | .expandEv _ => EXPANDED_SRC
  | .collapseEv _ => COLLAPSED_SRC

/-- Dispatch one event to its handler. -/
def step (dom : Dom) : Event → Dom
  | .expandEv t => onShow dom t
  | .collapseEv t => onHide dom t

/-- Process a finite sequence of events, one handler at a time (the
host runtime is single threaded; each handler runs to completion). -/
def run (dom : Dom) (evs : List Event) : Dom :=
  evs.foldl step dom

mutual

/-- Node identities of all `$(".update-on-expand")` toggle elements, in
document order. -/
def toggleIds : Dom → List Nat
  | .node i cs _ ch =>
    (if "update-on-expand" ∈ cs then [i] else []) ++ toggleIdsList ch

/-- `toggleIds` over a list of subtrees. -/
def toggleIdsList : List Dom → List Nat
  | [] => []
  | d :: ds => toggleIds d ++ toggleIdsList ds

end

/-- The document-ready initialization step:
`updateImage($(".update-on-expand"), COLLAPSED_SRC)`, i.e. the collapsed
icon is written for every toggle present at load. -/
def onReady (dom : Dom) : Dom :=
  (toggleIds dom).foldl (fun d t => updateImage d t COLLAPSED_SRC) dom

mutual

/-- Locate the (first) element with the given node identity. -/
def findNode (nid : Nat) : Dom → Option Dom
  | .node i cs ats ch =>
    if i = nid then some (.node i cs ats ch) else findNodeList nid ch

/-- `findNode` over a list of subtrees. -/
def findNodeList (nid : Nat) : List Dom → Option Dom
  | [] => none
  | d :: ds =>
    match findNode nid d with
    | some n => some n
    | none => findNodeList nid ds

end

/-- Observe an attribute of the element with the given node identity. -/
def getAttr (dom : Dom) (nid : Nat) (key : String) : Option String :=
  (findNode nid dom).bind fun n => lookupAttr n.attrs key

/-- Observe an attribute within a list of subtrees. -/
def getAttrList (l : List Dom) (nid : Nat) (key : String) : Option String :=
  (findNodeList nid l).bind fun n => lookupAttr n.attrs key

/-- Observe the `src` attribute of the element with the given identity. -/
def getSrc (dom : Dom) (nid : Nat) : Option String :=
  getAttr dom nid "src"

mutual

/-- All node identities in a document. -/
def allIds : Dom → List Nat
  | .node i _ _ ch => i :: allIdsList ch

/-- `allIds` over a list of subtrees. -/
def allIdsList : List Dom → List Nat
  | [] => []
  | d :: ds => allIds d ++ allIdsList ds

end

/-- Well-formedness: node identities are pairwise distinct (physical DOM
nodes are distinct objects). -/
def uniqueIds (dom : Dom) : Prop :=
  (allIds dom).Nodup

instance (dom : Dom) : Decidable (uniqueIds dom) :=
  inferInstanceAs (Decidable ((allIds dom).Nodup))

mutual

/-- Identities of the `.update-image` elements of a subtree, the root
included. -/
def imgIds : Dom → List Nat
  | .node i cs _ ch =>
    (if "update-image" ∈ cs then [i] else []) ++ imgIdsList ch

/-- `imgIds` over a list of subtrees. -/
def imgIdsList : List Dom → List Nat
  | [] => []
  | d :: ds => imgIds d ++ imgIdsList ds

end

/-- Identities of the `.update-image` elements that are strict
descendants of an element — exactly what `$(d).find(".update-image")`
matches. -/
def imgIdsBelow : Dom → List Nat
  | .node _ _ _ ch => imgIdsList ch

/-- Identities matched by `$(target).siblings().find(".update-image")`
within one children list: the union, over the children other than the
target, of their strict-descendant images. -/
def imgIdsOfSiblings (tid : Nat) : List Dom → List Nat
  | [] => []
  | d :: ds =>
    (if d.id = tid then [] else imgIdsBelow d) ++ imgIdsOfSiblings tid ds

mutual

/-- Identities of the images associated with a toggle: the elements
`$(target).siblings().find(".update-image")` matches in the document. -/
def siblingImageIds (tid : Nat) : Dom → List Nat
  | .node _ _ _ ch =>
    if tid ∈ childIds ch then imgIdsOfSiblings tid ch
    else siblingImageIdsList tid ch

/-- `siblingImageIds` over a list of subtrees. -/
def siblingImageIdsList (tid : Nat) : List Dom → List Nat
  | [] => []
  | d :: ds => siblingImageIds tid d ++ siblingImageIdsList tid ds

end

/-- Identities of the children of a list other than the target. -/
def otherIds (tid : Nat) : List Nat → List Nat
  | [] => []
  | i :: is => (if i = tid then [] else [i]) ++ otherIds tid is

mutual

/-- Identities of the direct siblings of the target element (the other
children of its parent) — what `$(target).siblings()` itself matches. -/
def directSiblingIds (tid : Nat) : Dom → List Nat
  | .node _ _ _ ch =>
    if tid ∈ childIds ch then otherIds tid (childIds ch)
    else directSiblingIdsList tid ch

/-- `directSiblingIds` over a list of subtrees. -/
def directSiblingIdsList (tid : Nat) : List Dom → List Nat
  | [] => []
  | d :: ds => directSiblingIds tid d ++ directSiblingIdsList tid ds

end

/-! Concrete documents used as witnesses. -/

/-- A document whose toggle (node 1) has a sibling (node 2) carrying one
`.update-image` element (node 3) in its subtree. -/
def testDom : Dom :=
  .node 0 [] []
    [ .node 1 ["update-on-expand"] [] []
    , .node 2 ["card"] []
        [ .node 3 ["update-image"] [("src", "old"), ("alt", "icon")] [] ] ]

/-- A document whose toggle (node 1) has a sibling but no `.update-image`
element anywhere among its siblings' descendants. -/
def bareDom : Dom :=
  .node 0 [] []
    [ .node 1 ["update-on-expand"] [] []
    , .node 2 ["card"] [("src", "stay")] [] ]

/-- A document whose toggle (node 1) has two siblings, each carrying an
`.update-image` element (nodes 3 and 5). -/
def twoImgDom : Dom :=
  .node 0 [] []
    [ .node 1 ["update-on-expand"] [] []
    , .node 2 [] [] [ .node 3 ["update-image"] [("src", "a")] [] ]
    , .node 4 [] [] [ .node 5 ["update-image"] [("src", "b")] [] ] ]

example : allIds testDom = [0, 1, 2, 3] := rfl
example : toggleIds testDom = [1] := rfl
example : siblingImageIds 1 testDom = [3] := rfl
example : directSiblingIds 1 testDom = [2] := rfl
example : siblingImageIds 1 bareDom = [] := rfl
example : siblingImageIds 1 twoImgDom = [3, 5] := rfl
example : getSrc (onShow testDom 1) 3 = some EXPANDED_SRC := rfl
example : getSrc (onReady testDom) 3 = some COLLAPSED_SRC := rfl

/-! Attribute-list lemmas. -/

theorem lookupAttr_setAttr_same (ats : List (String × String)) (key v : String) :
    lookupAttr (setAttr ats key v) key = some v := by
  induction ats with
  | nil => simp [setAttr, lookupAttr]
  | cons p rest ih =>
    obtain ⟨k, w⟩ := p
    by_cases h : k = key
    · simp [setAttr, lookupAttr, h]
    · simp [setAttr, lookupAttr, h, ih]

theorem lookupAttr_setAttr_ne (ats : List (String × String)) (key v key' : String)
    (h : key' ≠ key) :
    lookupAttr (setAttr ats key v) key' = lookupAttr ats key' := by
  induction ats with
  | nil =>
    simp only [setAttr, lookupAttr]
    rw [if_neg (fun hk => h hk.symm)]
  | cons p rest ih =>
    obtain ⟨k, w⟩ := p
    by_cases hk : k = key
    · subst hk
      simp only [setAttr, if_pos rfl, lookupAttr]
      rw [if_neg (fun hk2 => h hk2.symm), if_neg (fun hk2 => h hk2.symm)]
    · simp only [setAttr, if_neg hk, lookupAttr, ih]

theorem setAttr_idem (ats : List (String × String)) (key v : String) :
    setAttr (setAttr ats key v) key v = setAttr ats key v := by
  induction ats with
  | nil => simp [setAttr]
  | cons p rest ih =>
    obtain ⟨k, w⟩ := p
    by_cases h : k = key
    · simp [setAttr, h]
    · simp [setAttr, h, ih]

/-! `findNode` finds an element exactly when its identity occurs. -/

mutual

theorem findNode_eq_none_iff : ∀ (d : Dom) (j : Nat),
    findNode j d = none ↔ j ∉ allIds d
  | .node i cs ats ch, j => by
    by_cases h : i = j
    · simp [findNode, allIds, h]
    · simp [findNode, allIds, h, findNodeList_eq_none_iff ch j, Ne.symm h]

theorem findNodeList_eq_none_iff : ∀ (l : List Dom) (j : Nat),
    findNodeList j l = none ↔ j ∉ allIdsList l
  | [], j => by simp [findNodeList, allIdsList]
  | d :: ds, j => by
    cases h : findNode j d with
    | some n =>
      have hj : j ∈ allIds d := by
        by_contra hc
        rw [← findNode_eq_none_iff d j] at hc
        rw [h] at hc
        exact Option.noConfusion hc
      simp [findNodeList, h, allIdsList, hj]
    | none =>
      have hj : j ∉ allIds d := (findNode_eq_none_iff d j).mp h
      simp [findNodeList, h, allIdsList, hj, findNodeList_eq_none_iff ds j]

end

/-! Structure preservation: the transformations only touch attribute
lists, so identities and classes are unchanged everywhere. -/

theorem id_setSrcAt (url : String) (d : Dom) : (setSrcAt url d).id = d.id := by
  cases d with
  | node i cs ats ch => rfl

theorem id_setSrcBelow (url : String) (d : Dom) : (setSrcBelow url d).id = d.id := by
  cases d with
  | node i cs ats ch => rfl

theorem classes_setSrcAt (url : String) (d : Dom) :
    (setSrcAt url d).classes = d.classes := by
  cases d with
  | node i cs ats ch => rfl

theorem childIds_setSrcList (url : String) (l : List Dom) :
    childIds (setSrcList url l) = childIds l := by
  induction l with
  | nil => rfl
  | cons d ds ih => simp [setSrcList, childIds, id_setSrcAt, ih]

theorem childIds_updSiblings (tid : Nat) (url : String) (l : List Dom) :
    childIds (updSiblings tid url l) = childIds l := by
  induction l with
  | nil => rfl
  | cons d ds ih =>
    by_cases h : d.id = tid
    · simp [updSiblings, childIds, h, ih]
    · simp [updSiblings, childIds, h, id_setSrcBelow, ih]

mutual

theorem allIds_setSrcAt : ∀ (url : String) (d : Dom),
    allIds (setSrcAt url d) = allIds d
  | url, .node i cs ats ch => by
    simp [setSrcAt, allIds, allIds_setSrcList url ch]

theorem allIds_setSrcList : ∀ (url : String) (l : List Dom),
    allIdsList (setSrcList url l) = allIdsList l
  | url, [] => rfl
  | url, d :: ds => by
    simp [setSrcList, allIdsList, allIds_setSrcAt url d, allIds_setSrcList url ds]

end

theorem allIds_setSrcBelow (url : String) (d : Dom) :
    allIds (setSrcBelow url d) = allIds d := by
  cases d with
  | node i cs ats ch => simp [setSrcBelow, allIds, allIds_setSrcList]

theorem allIds_updSiblings (tid : Nat) (url : String) (l : List Dom) :
    allIdsList (updSiblings tid url l) = allIdsList l := by
  induction l with
  | nil => rfl
  | cons d ds ih =>
    by_cases h : d.id = tid
    · simp [updSiblings, allIdsList, h, ih]
    · simp [updSiblings, allIdsList, h, allIds_setSrcBelow, ih]

mutual

theorem allIds_updGo : ∀ (tid : Nat) (url : String) (d : Dom),
    allIds (updateImageGo tid url d) = allIds d
  | tid, url, .node i cs ats ch => by
    by_cases h : tid ∈ childIds ch
    · simp [updateImageGo, h, allIds, allIds_updSiblings]
    · simp [updateImageGo, h, allIds, allIds_updGoList tid url ch]

theorem allIds_updGoList : ∀ (tid : Nat) (url : String) (l : List Dom),
    allIdsList (updateImageGoList tid url l) = allIdsList l
  | tid, url, [] => rfl
  | tid, url, d :: ds => by
    simp [updateImageGoList, allIdsList, allIds_updGo tid url d,
      allIds_updGoList tid url ds]

end

theorem id_updGo (tid : Nat) (url : String) (d : Dom) :
    (updateImageGo tid url d).id = d.id := by
  cases d with
  | node i cs ats ch =>
    by_cases h : tid ∈ childIds ch
    · simp [updateImageGo, h, Dom.id]
    · simp [updateImageGo, h, Dom.id]

theorem childIds_updGoList (tid : Nat) (url : String) (l : List Dom) :
    childIds (updateImageGoList tid url l) = childIds l := by
  induction l with
  | nil => rfl
  | cons d ds ih => simp [updateImageGoList, childIds, id_updGo, ih]

/-! The selector observers (`imgIds`, `siblingImageIds`) depend only on
identities, classes and shape, so the transformations preserve them. -/

mutual

theorem imgIds_setSrcAt : ∀ (url : String) (d : Dom),
    imgIds (setSrcAt url d) = imgIds d
  | url, .node i cs ats ch => by
    simp [setSrcAt, imgIds, imgIds_setSrcList url ch]

theorem imgIds_setSrcList : ∀ (url : String) (l : List Dom),
    imgIdsList (setSrcList url l) = imgIdsList l
  | url, [] => rfl
  | url, d :: ds => by
    simp [setSrcList, imgIdsList, imgIds_setSrcAt url d, imgIds_setSrcList url ds]

end

theorem imgIdsBelow_setSrcBelow (url : String) (d : Dom) :
    imgIdsBelow (setSrcBelow url d) = imgIdsBelow d := by
  cases d with
  | node i cs ats ch => simp [setSrcBelow, imgIdsBelow, imgIds_setSrcList]

theorem imgIdsOfSiblings_setSrcList (tid : Nat) (url : String) (l : List Dom) :
    imgIdsOfSiblings tid (setSrcList url l) = imgIdsOfSiblings tid l := by
  induction l with
  | nil => rfl
  | cons d ds ih =>
    by_cases h : d.id = tid
    · simp [setSrcList, imgIdsOfSiblings, id_setSrcAt, h, ih]
    · cases d with
      | node i cs ats ch =>
        simp [setSrcList, imgIdsOfSiblings, id_setSrcAt, Dom.id] at h ⊢
        simp [h, ih, setSrcAt, imgIdsBelow, imgIds_setSrcList]

theorem imgIdsOfSiblings_updSiblings (s t : Nat) (url : String) (l : List Dom) :
    imgIdsOfSiblings s (updSiblings t url l) = imgIdsOfSiblings s l := by
  induction l with
  | nil => rfl
  | cons d ds ih =>
    simp only [updSiblings, imgIdsOfSiblings]
    by_cases ht : d.id = t
    · rw [if_pos ht, ih]
    · rw [if_neg ht]
      by_cases hs : d.id = s
      · have hid : (setSrcBelow url d).id = s := by rw [id_setSrcBelow]; exact hs
        rw [if_pos hid, if_pos hs, ih]
      · have hid : ¬ (setSrcBelow url d).id = s := by rw [id_setSrcBelow]; exact hs
        rw [if_neg hid, if_neg hs, imgIdsBelow_setSrcBelow, ih]

mutual

theorem sibIds_setSrcAt : ∀ (s : Nat) (url : String) (d : Dom),
    siblingImageIds s (setSrcAt url d) = siblingImageIds s d
  | s, url, .node i cs ats ch => by
    by_cases h : s ∈ childIds ch
    · simp [setSrcAt, siblingImageIds, childIds_setSrcList, h,
        imgIdsOfSiblings_setSrcList]
    · simp [setSrcAt, siblingImageIds, childIds_setSrcList, h,
        sibIds_setSrcList s url ch]

theorem sibIds_setSrcList : ∀ (s : Nat) (url : String) (l : List Dom),
    siblingImageIdsList s (setSrcList url l) = siblingImageIdsList s l
  | s, url, [] => rfl
  | s, url, d :: ds => by
    simp [setSrcList, siblingImageIdsList, sibIds_setSrcAt s url d,
      sibIds_setSrcList s url ds]

end

theorem sibIds_setSrcBelow (s : Nat) (url : String) (d : Dom) :
    siblingImageIds s (setSrcBelow url d) = siblingImageIds s d := by
  cases d with
  | node i cs ats ch =>
    by_cases h : s ∈ childIds ch
    · simp [setSrcBelow, siblingImageIds, childIds_setSrcList, h,
        imgIdsOfSiblings_setSrcList]
    · simp [setSrcBelow, siblingImageIds, childIds_setSrcList, h,
        sibIds_setSrcList]

theorem sibIdsList_updSiblings (s t : Nat) (url : String) (l : List Dom) :
    siblingImageIdsList s (updSiblings t url l) = siblingImageIdsList s l := by
  induction l with
  | nil => rfl
  | cons d ds ih =>
    by_cases ht : d.id = t
    · simp [updSiblings, siblingImageIdsList, ht, ih]
    · simp [updSiblings, siblingImageIdsList, ht, sibIds_setSrcBelow, ih]

mutual

theorem sibIds_updGo : ∀ (s t : Nat) (url : String) (d : Dom),
    siblingImageIds s (updateImageGo t url d) = siblingImageIds s d
  | s, t, url, .node i cs ats ch => by
    by_cases ht : t ∈ childIds ch
    · by_cases hs : s ∈ childIds ch
      · simp [updateImageGo, ht, siblingImageIds, childIds_updSiblings, hs,
          imgIdsOfSiblings_updSiblings]
      · simp [updateImageGo, ht, siblingImageIds, childIds_updSiblings, hs,
          sibIdsList_updSiblings]
    · by_cases hs : s ∈ childIds ch
      · simp [updateImageGo, ht, siblingImageIds, childIds_updGoList, hs,
          imgIdsOfSiblings_updGoList s t url ch]
      · simp [updateImageGo, ht, siblingImageIds, childIds_updGoList, hs,
          sibIds_updGoList s t url ch]

theorem sibIds_updGoList : ∀ (s t : Nat) (url : String) (l : List Dom),
    siblingImageIdsList s (updateImageGoList t url l) = siblingImageIdsList s l
  | s, t, url, [] => rfl
  | s, t, url, d :: ds => by
    simp [updateImageGoList, siblingImageIdsList, sibIds_updGo s t url d,
      sibIds_updGoList s t url ds]

theorem imgIdsOfSiblings_updGoList : ∀ (s t : Nat) (url : String) (l : List Dom),
    imgIdsOfSiblings s (updateImageGoList t url l) = imgIdsOfSiblings s l
  | s, t, url, [] => rfl
  | s, t, url, d :: ds => by
    by_cases hs : d.id = s
    · simp [updateImageGoList, imgIdsOfSiblings, id_updGo, hs,
        imgIdsOfSiblings_updGoList s t url ds]
    · simp [updateImageGoList, imgIdsOfSiblings, id_updGo, hs,
        imgIdsBelow_updGo t url d, imgIdsOfSiblings_updGoList s t url ds]

theorem imgIdsBelow_updGo : ∀ (t : Nat) (url : String) (d : Dom),
    imgIdsBelow (updateImageGo t url d) = imgIdsBelow d
  | t, url, .node i cs ats ch => by
    by_cases ht : t ∈ childIds ch
    · simp [updateImageGo, ht, imgIdsBelow, imgIdsList_updSiblings t url ch]
    · simp [updateImageGo, ht, imgIdsBelow, imgIdsList_updGoList t url ch]

theorem imgIdsList_updGoList : ∀ (t : Nat) (url : String) (l : List Dom),
    imgIdsList (updateImageGoList t url l) = imgIdsList l
  | t, url, [] => rfl
  | t, url, d :: ds => by
    simp [updateImageGoList, imgIdsList, imgIds_updGo t url d,
      imgIdsList_updGoList t url ds]

theorem imgIds_updGo : ∀ (t : Nat) (url : String) (d : Dom),
    imgIds (updateImageGo t url d) = imgIds d
  | t, url, .node i cs ats ch => by
    by_cases ht : t ∈ childIds ch
    · simp [updateImageGo, ht, imgIds, imgIdsList_updSiblings t url ch]
    · simp [updateImageGo, ht, imgIds, imgIdsList_updGoList t url ch]

theorem imgIdsList_updSiblings : ∀ (t : Nat) (url : String) (l : List Dom),
    imgIdsList (updSiblings t url l) = imgIdsList l
  | t, url, [] => rfl
  | t, url, d :: ds => by
    by_cases ht : d.id = t
    · simp [updSiblings, imgIdsList, ht, imgIdsList_updSiblings t url ds]
    · cases d with
      | node i cs ats ch =>
        simp [updSiblings, imgIdsList, ht, imgIdsList_updSiblings t url ds,
          setSrcBelow, imgIds, imgIds_setSrcList]

end

/-! Selector results mention only identities present in the document. -/

mutual

theorem imgIds_subset_allIds : ∀ (d : Dom) (j : Nat),
    j ∈ imgIds d → j ∈ allIds d
  | .node i cs ats ch, j => by
    intro h
    simp only [imgIds, List.mem_append] at h
    simp only [allIds, List.mem_cons]
    rcases h with h | h
    · by_cases hc : "update-image" ∈ cs
      · rw [if_pos hc] at h
        simp at h
        exact Or.inl h
      · rw [if_neg hc] at h
        simp at h
    · exact Or.inr (imgIdsList_subset_allIdsList ch j h)

theorem imgIdsList_subset_allIdsList : ∀ (l : List Dom) (j : Nat),
    j ∈ imgIdsList l → j ∈ allIdsList l
  | [], j => by simp [imgIdsList]
  | d :: ds, j => by
    intro h
    simp only [imgIdsList, List.mem_append] at h
    simp only [allIdsList, List.mem_append]
    rcases h with h | h
    · exact Or.inl (imgIds_subset_allIds d j h)
    · exact Or.inr (imgIdsList_subset_allIdsList ds j h)

end

theorem imgIdsBelow_subset_allIds (d : Dom) (j : Nat) :
    j ∈ imgIdsBelow d → j ∈ allIds d := by
  cases d with
  | node i cs ats ch =>
    intro h
    simp only [imgIdsBelow] at h
    simp only [allIds, List.mem_cons]
    exact Or.inr (imgIdsList_subset_allIdsList ch j h)

theorem imgIdsOfSiblings_subset (tid : Nat) (l : List Dom) (j : Nat) :
    j ∈ imgIdsOfSiblings tid l → j ∈ allIdsList l := by
  induction l with
  | nil => simp [imgIdsOfSiblings]
  | cons d ds ih =>
    intro h
    simp only [imgIdsOfSiblings, List.mem_append] at h
    simp only [allIdsList, List.mem_append]
    rcases h with h | h
    · by_cases hd : d.id = tid
      · rw [if_pos hd] at h
        simp at h
      · rw [if_neg hd] at h
        exact Or.inl (imgIdsBelow_subset_allIds d j h)
    · exact Or.inr (ih h)

mutual

theorem sibIds_subset_allIds : ∀ (tid : Nat) (d : Dom) (j : Nat),
    j ∈ siblingImageIds tid d → j ∈ allIds d
  | tid, .node i cs ats ch, j => by
    intro h
    simp only [siblingImageIds] at h
    simp only [allIds, List.mem_cons]
    by_cases hc : tid ∈ childIds ch
    · rw [if_pos hc] at h
      exact Or.inr (imgIdsOfSiblings_subset tid ch j h)
    · rw [if_neg hc] at h
      exact Or.inr (sibIdsList_subset_allIdsList tid ch j h)

theorem sibIdsList_subset_allIdsList : ∀ (tid : Nat) (l : List Dom) (j : Nat),
    j ∈ siblingImageIdsList tid l → j ∈ allIdsList l
  | tid, [], j => by simp [siblingImageIdsList]
  | tid, d :: ds, j => by
    intro h
    simp only [siblingImageIdsList, List.mem_append] at h
    simp only [allIdsList, List.mem_append]
    rcases h with h | h
    · exact Or.inl (sibIds_subset_allIds tid d j h)
    · exact Or.inr (sibIdsList_subset_allIdsList tid ds j h)

end

/-! Unfolding helpers for the observers, and `Nodup` bookkeeping. -/

theorem getAttr_node (i : Nat) (cs : List String) (ats : List (String × String))
    (ch : List Dom) (j : Nat) (key : String) :
    getAttr (.node i cs ats ch) j key =
      if i = j then lookupAttr ats key else getAttrList ch j key := by
  by_cases h : i = j
  · simp [getAttr, findNode, h, Dom.attrs]
  · simp [getAttr, getAttrList, findNode, h]

theorem getAttrList_cons (d : Dom) (ds : List Dom) (j : Nat) (key : String) :
    getAttrList (d :: ds) j key =
      if j ∈ allIds d then getAttr d j key else getAttrList ds j key := by
  cases hf : findNode j d with
  | some n =>
    have hj : j ∈ allIds d := by
      by_contra hc
      rw [← findNode_eq_none_iff d j] at hc
      rw [hf] at hc
      exact Option.noConfusion hc
    simp [getAttrList, findNodeList, hf, getAttr, hj]
  | none =>
    have hj : j ∉ allIds d := (findNode_eq_none_iff d j).mp hf
    simp [getAttrList, findNodeList, hf, getAttr, hj]

theorem nodup_app_left {l₁ l₂ : List Nat} (h : (l₁ ++ l₂).Nodup) : l₁.Nodup :=
  (List.nodup_append.mp h).1

theorem nodup_app_right {l₁ l₂ : List Nat} (h : (l₁ ++ l₂).Nodup) : l₂.Nodup :=
  (List.nodup_append.mp h).2.1

theorem nodup_app_disj {l₁ l₂ : List Nat} (h : (l₁ ++ l₂).Nodup) {j : Nat}
    (hj : j ∈ l₁) : j ∉ l₂ :=
  (List.nodup_append.mp h).2.2 hj

/-! Characterization of `find(".update-image").attr("src", url)`:
matched elements read back the written URL, all others are untouched. -/

mutual

theorem getAttr_setSrcAt_src : ∀ (url : String) (d : Dom) (j : Nat),
    (allIds d).Nodup →
    getAttr (setSrcAt url d) j "src" =
      if j ∈ imgIds d then some url else getAttr d j "src"
  | url, .node i cs ats ch, j => by
    intro hN
    rw [allIds] at hN
    have hi : i ∉ allIdsList ch := (List.nodup_cons.mp hN).1
    have hch : (allIdsList ch).Nodup := (List.nodup_cons.mp hN).2
    simp only [setSrcAt, getAttr_node]
    by_cases hij : i = j
    · subst hij
      have himg : i ∉ imgIdsList ch :=
        fun hc => hi (imgIdsList_subset_allIdsList ch i hc)
      by_cases hc : "update-image" ∈ cs
      · rw [if_pos rfl, if_pos hc, lookupAttr_setAttr_same]
        rw [if_pos (by simp [imgIds, hc])]
      · rw [if_pos rfl, if_neg hc]
        rw [if_neg (by simp [imgIds, hc, himg]), if_pos rfl]
    · rw [if_neg hij, getAttrList_setSrcList_src url ch j hch]
      have hhead : j ∉ (if "update-image" ∈ cs then [i] else []) := by
        by_cases hc : "update-image" ∈ cs
        · simp [hc, Ne.symm hij]
        · simp [hc]
      by_cases hmem : j ∈ imgIdsList ch
      · rw [if_pos hmem, if_pos (by simp [imgIds, List.mem_append, hmem])]
      · rw [if_neg hmem]
        rw [if_neg (by simp only [imgIds, List.mem_append]; rintro (h | h)
              <;> [exact hhead h; exact hmem h])]
        rw [if_neg hij]

theorem getAttrList_setSrcList_src : ∀ (url : String) (l : List Dom) (j : Nat),
    (allIdsList l).Nodup →
    getAttrList (setSrcList url l) j "src" =
      if j ∈ imgIdsList l then some url else getAttrList l j "src"
  | url, [], j => by
    intro _
    simp [setSrcList, imgIdsList]
  | url, d :: ds, j => by
    intro hN
    rw [allIdsList] at hN
    have hd : (allIds d).Nodup := nodup_app_left hN
    have hds : (allIdsList ds).Nodup := nodup_app_right hN
    simp only [setSrcList]
    rw [getAttrList_cons, allIds_setSrcAt]
    by_cases hj : j ∈ allIds d
    · rw [if_pos hj, getAttr_setSrcAt_src url d j hd]
      have hnds : j ∉ imgIdsList ds := fun hc =>
        nodup_app_disj hN hj (imgIdsList_subset_allIdsList ds j hc)
      by_cases hmem : j ∈ imgIds d
      · rw [if_pos hmem, if_pos (by simp [imgIdsList, List.mem_append, hmem])]
      · rw [if_neg hmem]
        rw [if_neg (by simp only [imgIdsList, List.mem_append]; rintro (h | h)
              <;> [exact hmem h; exact hnds h])]
        rw [getAttrList_cons, if_pos hj]
    · rw [if_neg hj, getAttrList_setSrcList_src url ds j hds]
      have hnd : j ∉ imgIds d := fun hc => hj (imgIds_subset_allIds d j hc)
      by_cases hmem : j ∈ imgIdsList ds
      · rw [if_pos hmem, if_pos (by simp [imgIdsList, List.mem_append, hmem])]
      · rw [if_neg hmem]
        rw [if_neg (by simp only [imgIdsList, List.mem_append]; rintro (h | h)
              <;> [exact hnd h; exact hmem h])]
        rw [getAttrList_cons, if_neg hj]

end

theorem getAttr_setSrcBelow_src (url : String) (d : Dom) (j : Nat)
    (hN : (allIds d).Nodup) :
    getAttr (setSrcBelow url d) j "src" =
      if j ∈ imgIdsBelow d then some url else getAttr d j "src" := by
  cases d with
  | node i cs ats ch =>
    rw [allIds] at hN
    have hi : i ∉ allIdsList ch := (List.nodup_cons.mp hN).1
    have hch : (allIdsList ch).Nodup := (List.nodup_cons.mp hN).2
    simp only [setSrcBelow, imgIdsBelow, getAttr_node]
    by_cases hij : i = j
    · subst hij
      have himg : i ∉ imgIdsList ch :=
        fun hc => hi (imgIdsList_subset_allIdsList ch i hc)
      rw [if_pos rfl, if_neg himg, if_pos rfl]
    · rw [if_neg hij, getAttrList_setSrcList_src url ch j hch, if_neg hij]

mutual

theorem getAttr_setSrcAt_ne : ∀ (url : String) (d : Dom) (j : Nat) (key : String),
    key ≠ "src" →
    getAttr (setSrcAt url d) j key = getAttr d j key
  | url, .node i cs ats ch, j, key => by
    intro hk
    simp only [setSrcAt, getAttr_node]
    by_cases hij : i = j
    · rw [if_pos hij, if_pos hij]
      by_cases hc : "update-image" ∈ cs
      · rw [if_pos hc, lookupAttr_setAttr_ne ats "src" url key hk]
      · rw [if_neg hc]
    · rw [if_neg hij, if_neg hij, getAttrList_setSrcList_ne url ch j key hk]

theorem getAttrList_setSrcList_ne : ∀ (url : String) (l : List Dom) (j : Nat)
    (key : String), key ≠ "src" →
    getAttrList (setSrcList url l) j key = getAttrList l j key
  | url, [], j, key => by
    intro _
    simp [setSrcList]
  | url, d :: ds, j, key => by
    intro hk
    simp only [setSrcList]
    rw [getAttrList_cons, allIds_setSrcAt, getAttrList_cons]
    by_cases hj : j ∈ allIds d
    · rw [if_pos hj, if_pos hj, getAttr_setSrcAt_ne url d j key hk]
    · rw [if_neg hj, if_neg hj, getAttrList_setSrcList_ne url ds j key hk]

end

theorem getAttr_setSrcBelow_ne (url : String) (d : Dom) (j : Nat) (key : String)
    (hk : key ≠ "src") :
    getAttr (setSrcBelow url d) j key = getAttr d j key := by
  cases d with
  | node i cs ats ch =>
    simp only [setSrcBelow, getAttr_node]
    by_cases hij : i = j
    · rw [if_pos hij, if_pos hij]
    · rw [if_neg hij, if_neg hij, getAttrList_setSrcList_ne url ch j key hk]

/-! Characterization of `updSiblings`: exactly the images matched by
`$(target).siblings().find(".update-image")` get the URL. -/

theorem getAttrList_updSiblings_src (tid : Nat) (url : String) (l : List Dom)
    (j : Nat) (hN : (allIdsList l).Nodup) :
    getAttrList (updSiblings tid url l) j "src" =
      if j ∈ imgIdsOfSiblings tid l then some url
      else getAttrList l j "src" := by
  induction l with
  | nil => simp [updSiblings, imgIdsOfSiblings]
  | cons d ds ih =>
    rw [allIdsList] at hN
    have hd : (allIds d).Nodup := nodup_app_left hN
    have hds : (allIdsList ds).Nodup := nodup_app_right hN
    simp only [updSiblings, imgIdsOfSiblings]
    by_cases ht : d.id = tid
    · simp only [if_pos ht, List.nil_append]
      rw [getAttrList_cons]
      by_cases hj : j ∈ allIds d
      · have hrest : j ∉ imgIdsOfSiblings tid ds := fun hc =>
          nodup_app_disj hN hj (imgIdsOfSiblings_subset tid ds j hc)
        rw [if_pos hj, if_neg hrest, getAttrList_cons, if_pos hj]
      · rw [if_neg hj, ih hds]
        by_cases hmem : j ∈ imgIdsOfSiblings tid ds
        · rw [if_pos hmem, if_pos hmem]
        · rw [if_neg hmem, if_neg hmem, getAttrList_cons, if_neg hj]
    · simp only [if_neg ht]
      rw [getAttrList_cons, allIds_setSrcBelow]
      by_cases hj : j ∈ allIds d
      · have hrest : j ∉ imgIdsOfSiblings tid ds := fun hc =>
          nodup_app_disj hN hj (imgIdsOfSiblings_subset tid ds j hc)
        rw [if_pos hj, getAttr_setSrcBelow_src url d j hd]
        by_cases hmem : j ∈ imgIdsBelow d
        · rw [if_pos hmem, if_pos (by simp [List.mem_append, hmem])]
        · rw [if_neg hmem]
          rw [if_neg (by simp only [List.mem_append]; rintro (h | h)
                <;> [exact hmem h; exact hrest h])]
          rw [getAttrList_cons, if_pos hj]
      · have hnd : j ∉ imgIdsBelow d := fun hc =>
          hj (imgIdsBelow_subset_allIds d j hc)
        rw [if_neg hj, ih hds]
        by_cases hmem : j ∈ imgIdsOfSiblings tid ds
        · rw [if_pos hmem, if_pos (by simp [List.mem_append, hmem])]
        · rw [if_neg hmem]
          rw [if_neg (by simp only [List.mem_append]; rintro (h | h)
                <;> [exact hnd h; exact hmem h])]
          rw [getAttrList_cons, if_neg hj]

theorem getAttrList_updSiblings_ne (tid : Nat) (url : String) (l : List Dom)
    (j : Nat) (key : String) (hk : key ≠ "src") :
    getAttrList (updSiblings tid url l) j key = getAttrList l j key := by
  induction l with
  | nil => simp [updSiblings]
  | cons d ds ih =>
    simp only [updSiblings]
    by_cases ht : d.id = tid
    · rw [if_pos ht, getAttrList_cons, getAttrList_cons]
      by_cases hj : j ∈ allIds d
      · rw [if_pos hj, if_pos hj]
      · rw [if_neg hj, if_neg hj, ih]
    · rw [if_neg ht, getAttrList_cons, allIds_setSrcBelow, getAttrList_cons]
      by_cases hj : j ∈ allIds d
      · rw [if_pos hj, if_pos hj, getAttr_setSrcBelow_ne url d j key hk]
      · rw [if_neg hj, if_neg hj, ih]

/-! Main characterization: one `updateImage` call writes the URL into the
`src` attribute of exactly the elements matched by
`$(target).siblings().find(".update-image")`, and nothing else. -/

mutual

theorem getAttr_updGo_src : ∀ (tid : Nat) (url : String) (d : Dom) (j : Nat),
    (allIds d).Nodup →
    getAttr (updateImageGo tid url d) j "src" =
      if j ∈ siblingImageIds tid d then some url else getAttr d j "src"
  | tid, url, .node i cs ats ch, j => by
    intro hN
    rw [allIds] at hN
    have hi : i ∉ allIdsList ch := (List.nodup_cons.mp hN).1
    have hch : (allIdsList ch).Nodup := (List.nodup_cons.mp hN).2
    simp only [updateImageGo, siblingImageIds]
    by_cases hf : tid ∈ childIds ch
    · simp only [if_pos hf, getAttr_node]
      by_cases hij : i = j
      · subst hij
        have hsib : i ∉ imgIdsOfSiblings tid ch := fun hc =>
          hi (imgIdsOfSiblings_subset tid ch i hc)
        rw [if_pos rfl, if_neg hsib, if_pos rfl]
      · rw [if_neg hij, if_neg hij,
          getAttrList_updSiblings_src tid url ch j hch]
    · simp only [if_neg hf, getAttr_node]
      by_cases hij : i = j
      · subst hij
        have hsib : i ∉ siblingImageIdsList tid ch := fun hc =>
          hi (sibIdsList_subset_allIdsList tid ch i hc)
        rw [if_pos rfl, if_neg hsib, if_pos rfl]
      · rw [if_neg hij, if_neg hij,
          getAttrList_updGoList_src tid url ch j hch]

theorem getAttrList_updGoList_src : ∀ (tid : Nat) (url : String)
    (l : List Dom) (j : Nat), (allIdsList l).Nodup →
    getAttrList (updateImageGoList tid url l) j "src" =
      if j ∈ siblingImageIdsList tid l then some url
      else getAttrList l j "src"
  | tid, url, [], j => by
    intro _
    simp [updateImageGoList, siblingImageIdsList]
  | tid, url, d :: ds, j => by
    intro hN
    rw [allIdsList] at hN
    have hd : (allIds d).Nodup := nodup_app_left hN
    have hds : (allIdsList ds).Nodup := nodup_app_right hN
    simp only [updateImageGoList, siblingImageIdsList]
    rw [getAttrList_cons, allIds_updGo]
    by_cases hj : j ∈ allIds d
    · have hrest : j ∉ siblingImageIdsList tid ds := fun hc =>
        nodup_app_disj hN hj (sibIdsList_subset_allIdsList tid ds j hc)
      rw [if_pos hj, getAttr_updGo_src tid url d j hd]
      by_cases hmem : j ∈ siblingImageIds tid d
      · rw [if_pos hmem, if_pos (by simp [List.mem_append, hmem])]
      · rw [if_neg hmem]
        rw [if_neg (by simp only [List.mem_append]; rintro (h | h)
              <;> [exact hmem h; exact hrest h])]
        rw [getAttrList_cons, if_pos hj]
    · have hnd : j ∉ siblingImageIds tid d := fun hc =>
        hj (sibIds_subset_allIds tid d j hc)
      rw [if_neg hj, getAttrList_updGoList_src tid url ds j hds]
      by_cases hmem : j ∈ siblingImageIdsList tid ds
      · rw [if_pos hmem, if_pos (by simp [List.mem_append, hmem])]
      · rw [if_neg hmem]
        rw [if_neg (by simp only [List.mem_append]; rintro (h | h)
              <;> [exact hnd h; exact hmem h])]
        rw [getAttrList_cons, if_neg hj]

end

mutual

theorem getAttr_updGo_ne : ∀ (tid : Nat) (url : String) (d : Dom) (j : Nat)
    (key : String), key ≠ "src" →
    getAttr (updateImageGo tid url d) j key = getAttr d j key
  | tid, url, .node i cs ats ch, j, key => by
    intro hk
    simp only [updateImageGo]
    by_cases hf : tid ∈ childIds ch
    · simp only [if_pos hf, getAttr_node]
      by_cases hij : i = j
      · rw [if_pos hij, if_pos hij]
      · rw [if_neg hij, if_neg hij,
          getAttrList_updSiblings_ne tid url ch j key hk]
    · simp only [if_neg hf, getAttr_node]
      by_cases hij : i = j
      · rw [if_pos hij, if_pos hij]
      · rw [if_neg hij, if_neg hij,
          getAttrList_updGoList_ne tid url ch j key hk]

theorem getAttrList_updGoList_ne : ∀ (tid : Nat) (url : String)
    (l : List Dom) (j : Nat) (key : String), key ≠ "src" →
    getAttrList (updateImageGoList tid url l) j key = getAttrList l j key
  | tid, url, [], j, key => by
    intro _
    simp [updateImageGoList]
  | tid, url, d :: ds, j, key => by
    intro hk
    simp only [updateImageGoList]
    rw [getAttrList_cons, allIds_updGo, getAttrList_cons]
    by_cases hj : j ∈ allIds d
    · rw [if_pos hj, if_pos hj, getAttr_updGo_ne tid url d j key hk]
    · rw [if_neg hj, if_neg hj, getAttrList_updGoList_ne tid url ds j key hk]

end

/-- `updateImage` in terms of the document-level observers. -/
theorem getSrc_updateImage (dom : Dom) (tid : Nat) (url : String) (j : Nat)
    (hN : uniqueIds dom) :
    getSrc (updateImage dom tid url) j =
      if j ∈ siblingImageIds tid dom then some url else getSrc dom j :=
  getAttr_updGo_src tid url dom j hN

/-- `updateImage` leaves every attribute other than `src` unchanged. -/
theorem getAttr_updateImage_ne (dom : Dom) (tid : Nat) (url : String) (j : Nat)
    (key : String) (hk : key ≠ "src") :
    getAttr (updateImage dom tid url) j key = getAttr dom j key :=
  getAttr_updGo_ne tid url dom j key hk

/-! No matching image, no mutation: the transformations are the identity
whenever their selector matches nothing. -/

mutual

theorem setSrcAt_eq_self : ∀ (url : String) (d : Dom),
    imgIds d = [] → setSrcAt url d = d
  | url, .node i cs ats ch => by
    intro h
    simp only [imgIds, List.append_eq_nil] at h
    have hc : "update-image" ∉ cs := by
      intro hc
      rw [if_pos hc] at h
      exact List.cons_ne_nil i [] h.1
    rw [if_neg hc] at h
    simp only [setSrcAt, if_neg hc]
    rw [setSrcList_eq_self url ch h.2]

theorem setSrcList_eq_self : ∀ (url : String) (l : List Dom),
    imgIdsList l = [] → setSrcList url l = l
  | url, [] => by
    intro _
    rfl
  | url, d :: ds => by
    intro h
    simp only [imgIdsList, List.append_eq_nil] at h
    simp only [setSrcList]
    rw [setSrcAt_eq_self url d h.1, setSrcList_eq_self url ds h.2]

end

theorem setSrcBelow_eq_self (url : String) (d : Dom) (h : imgIdsBelow d = []) :
    setSrcBelow url d = d := by
  cases d with
  | node i cs ats ch =>
    simp only [imgIdsBelow] at h
    simp only [setSrcBelow]
    rw [setSrcList_eq_self url ch h]

theorem updSiblings_eq_self (tid : Nat) (url : String) (l : List Dom)
    (h : imgIdsOfSiblings tid l = []) : updSiblings tid url l = l := by
  induction l with
  | nil => rfl
  | cons d ds ih =>
    simp only [imgIdsOfSiblings, List.append_eq_nil] at h
    simp only [updSiblings]
    by_cases ht : d.id = tid
    · rw [if_pos ht, ih h.2]
    · rw [if_neg ht] at h ⊢
      rw [setSrcBelow_eq_self url d h.1, ih h.2]

mutual

theorem updGo_eq_self : ∀ (tid : Nat) (url : String) (d : Dom),
    siblingImageIds tid d = [] → updateImageGo tid url d = d
  | tid, url, .node i cs ats ch => by
    intro h
    simp only [siblingImageIds] at h
    simp only [updateImageGo]
    by_cases hf : tid ∈ childIds ch
    · rw [if_pos hf] at h
      rw [if_pos hf, updSiblings_eq_self tid url ch h]
    · rw [if_neg hf] at h
      rw [if_neg hf, updGoList_eq_self tid url ch h]

theorem updGoList_eq_self : ∀ (tid : Nat) (url : String) (l : List Dom),
    siblingImageIdsList tid l = [] → updateImageGoList tid url l = l
  | tid, url, [] => by
    intro _
    rfl
  | tid, url, d :: ds => by
    intro h
    simp only [siblingImageIdsList, List.append_eq_nil] at h
    simp only [updateImageGoList]
    rw [updGo_eq_self tid url d h.1, updGoList_eq_self tid url ds h.2]

end

/-! Idempotence of the transformations. -/

mutual

theorem setSrcAt_idem : ∀ (url : String) (d : Dom),
    setSrcAt url (setSrcAt url d) = setSrcAt url d
  | url, .node i cs ats ch => by
    simp only [setSrcAt]
    rw [setSrcList_idem url ch]
    by_cases hc : "update-image" ∈ cs
    · rw [if_pos hc, if_pos hc, setAttr_idem]
    · rw [if_neg hc, if_neg hc]

theorem setSrcList_idem : ∀ (url : String) (l : List Dom),
    setSrcList url (setSrcList url l) = setSrcList url l
  | url, [] => rfl
  | url, d :: ds => by
    simp only [setSrcList]
    rw [setSrcAt_idem url d, setSrcList_idem url ds]

end

theorem setSrcBelow_idem (url : String) (d : Dom) :
    setSrcBelow url (setSrcBelow url d) = setSrcBelow url d := by
  cases d with
  | node i cs ats ch =>
    simp only [setSrcBelow]
    rw [setSrcList_idem]

theorem updSiblings_idem (tid : Nat) (url : String) (l : List Dom) :
    updSiblings tid url (updSiblings tid url l) = updSiblings tid url l := by
  induction l with
  | nil => rfl
  | cons d ds ih =>
    simp only [updSiblings]
    by_cases ht : d.id = tid
    · rw [if_pos ht]
      simp only [updSiblings, if_pos ht, ih]
    · rw [if_neg ht]
      have hid : (setSrcBelow url d).id = d.id := id_setSrcBelow url d
      simp only [updSiblings, hid, if_neg ht, ih, setSrcBelow_idem]

mutual

theorem updGo_idem : ∀ (tid : Nat) (url : String) (d : Dom),
    updateImageGo tid url (updateImageGo tid url d) = updateImageGo tid url d
  | tid, url, .node i cs ats ch => by
    simp only [updateImageGo]
    by_cases hf : tid ∈ childIds ch
    · rw [if_pos hf]
      simp only [updateImageGo, childIds_updSiblings, if_pos hf,
        updSiblings_idem]
    · rw [if_neg hf]
      simp only [updateImageGo, childIds_updGoList, if_neg hf,
        updGoList_idem tid url ch]

theorem updGoList_idem : ∀ (tid : Nat) (url : String) (l : List Dom),
    updateImageGoList tid url (updateImageGoList tid url l) =
      updateImageGoList tid url l
  | tid, url, [] => rfl
  | tid, url, d :: ds => by
    simp only [updateImageGoList]
    rw [updGo_idem tid url d, updGoList_idem tid url ds]

end

/-! Preservation along event sequences and initialization. -/

theorem step_eq (dom : Dom) (e : Event) :
    step dom e = updateImage dom (eventTarget e) (eventSrc e) := by
  cases e with
  | expandEv t => rfl
  | collapseEv t => rfl

theorem allIds_step (dom : Dom) (e : Event) : allIds (step dom e) = allIds dom := by
  rw [step_eq]
  exact allIds_updGo (eventTarget e) (eventSrc e) dom

theorem sibIds_step (s : Nat) (dom : Dom) (e : Event) :
    siblingImageIds s (step dom e) = siblingImageIds s dom := by
  rw [step_eq]
  exact sibIds_updGo s (eventTarget e) (eventSrc e) dom

theorem allIds_run (dom : Dom) (evs : List Event) :
    allIds (run dom evs) = allIds dom := by
  induction evs generalizing dom with
  | nil => rfl
  | cons e es ih =>
    show allIds (run (step dom e) es) = allIds dom
    rw [ih (step dom e), allIds_step]

theorem sibIds_run (s : Nat) (dom : Dom) (evs : List Event) :
    siblingImageIds s (run dom evs) = siblingImageIds s dom := by
  induction evs generalizing dom with
  | nil => rfl
  | cons e es ih =>
    show siblingImageIds s (run (step dom e) es) = siblingImageIds s dom
    rw [ih (step dom e), sibIds_step]

theorem allIds_foldUpd (ts : List Nat) (dom : Dom) :
    allIds (ts.foldl (fun d t => updateImage d t COLLAPSED_SRC) dom) =
      allIds dom := by
  induction ts generalizing dom with
  | nil => rfl
  | cons t ts ih =>
    show allIds (ts.foldl _ (updateImage dom t COLLAPSED_SRC)) = allIds dom
    rw [ih (updateImage dom t COLLAPSED_SRC)]
    exact allIds_updGo t COLLAPSED_SRC dom

theorem sibIds_foldUpd (s : Nat) (ts : List Nat) (dom : Dom) :
    siblingImageIds s (ts.foldl (fun d t => updateImage d t COLLAPSED_SRC) dom) =
      siblingImageIds s dom := by
  induction ts generalizing dom with
  | nil => rfl
  | cons t ts ih =>
    show siblingImageIds s (ts.foldl _ (updateImage dom t COLLAPSED_SRC)) =
      siblingImageIds s dom
    rw [ih (updateImage dom t COLLAPSED_SRC)]
    exact sibIds_updGo s t COLLAPSED_SRC dom

theorem allIds_onReady (dom : Dom) : allIds (onReady dom) = allIds dom :=
  allIds_foldUpd (toggleIds dom) dom

theorem sibIds_onReady (s : Nat) (dom : Dom) :
    siblingImageIds s (onReady dom) = siblingImageIds s dom :=
  sibIds_foldUpd s (toggleIds dom) dom

theorem allIds_updateImage (dom : Dom) (tid : Nat) (url : String) :
    allIds (updateImage dom tid url) = allIds dom :=
  allIds_updGo tid url dom

theorem sibIds_updateImage (s : Nat) (dom : Dom) (tid : Nat) (url : String) :
    siblingImageIds s (updateImage dom tid url) = siblingImageIds s dom :=
  sibIds_updGo s tid url dom

/-- Invariant of the initialization fold: once some processed toggle has
the observed image among its sibling images (or the image already shows
the collapsed icon), the collapsed icon is what remains. -/
theorem getSrc_foldUpd (j : Nat) (ts : List Nat) (dom : Dom)
    (hN : (allIds dom).Nodup)
    (h : getSrc dom j = some COLLAPSED_SRC ∨
      ∃ t, t ∈ ts ∧ j ∈ siblingImageIds t dom) :
    getSrc (ts.foldl (fun d t => updateImage d t COLLAPSED_SRC) dom) j =
      some COLLAPSED_SRC := by
  induction ts generalizing dom with
  | nil =>
    rcases h with h | ⟨t, ht, _⟩
    · exact h
    · exact absurd ht (List.not_mem_nil t)
  | cons t ts ih =>
    show getSrc (ts.foldl _ (updateImage dom t COLLAPSED_SRC)) j = _
    apply ih (updateImage dom t COLLAPSED_SRC)
      (by rw [allIds_updateImage]; exact hN)
    rcases h with h | ⟨t', ht', hmem⟩
    · left
      rw [getSrc_updateImage dom t COLLAPSED_SRC j hN]
      by_cases hm : j ∈ siblingImageIds t dom
      · rw [if_pos hm]
      · rw [if_neg hm]
        exact h
    · rcases List.mem_cons.mp ht' with he | hts
      · left
        subst he
        rw [getSrc_updateImage dom t' COLLAPSED_SRC j hN, if_pos hmem]
      · right
        refine ⟨t', hts, ?_⟩
        rw [sibIds_updateImage]
        exact hmem

/-- After the ready handler, every image associated with a toggle
present at load shows the collapsed icon. -/
theorem getSrc_onReady (dom : Dom) (tid j : Nat) (hN : uniqueIds dom)
    (ht : tid ∈ toggleIds dom) (hj : j ∈ siblingImageIds tid dom) :
    getSrc (onReady dom) j = some COLLAPSED_SRC :=
  getSrc_foldUpd j (toggleIds dom) dom hN (Or.inr ⟨tid, ht, hj⟩)

theorem uniqueIds_run (dom : Dom) (evs : List Event) (hN : uniqueIds dom) :
    uniqueIds (run dom evs) := by
  show (allIds (run dom evs)).Nodup
  rw [allIds_run]
  exact hN

theorem uniqueIds_onReady (dom : Dom) (hN : uniqueIds dom) :
    uniqueIds (onReady dom) := by
  show (allIds (onReady dom)).Nodup
  rw [allIds_onReady]
  exact hN

/-! Claim theorems. -/

/-- C1: for every toggle element with an associated image (class
`update-image` in a sibling's subtree), after a `show.bs.collapse`
(expand) event fires on that toggle, the image's `src` attribute equals
the expanded icon URL. -/
theorem expand_sets_sibling_images_expanded (dom : Dom) (tid imgId : Nat)
    (hN : uniqueIds dom) (ht : tid ∈ toggleIds dom)
    (him : imgId ∈ siblingImageIds tid dom) :
    getSrc (onShow dom tid) imgId = some EXPANDED_SRC := by
  show getSrc (updateImage dom tid EXPANDED_SRC) imgId = _
  rw [getSrc_updateImage dom tid EXPANDED_SRC imgId hN, if_pos him]

theorem expand_sets_sibling_images_expanded_witness :
    uniqueIds testDom ∧ 1 ∈ toggleIds testDom ∧
      3 ∈ siblingImageIds 1 testDom ∧
      getSrc (onShow testDom 1) 3 = some EXPANDED_SRC :=
  ⟨by decide, by decide, by decide,
    expand_sets_sibling_images_expanded testDom 1 3 (by decide) (by decide)
      (by decide)⟩

/-- C2: for every toggle element with an associated image, after a
`hide.bs.collapse` (collapse) event fires on that toggle, the image's
`src` attribute equals the collapsed icon URL, regardless of the prior
sequence of events since initialization. -/
theorem collapse_sets_sibling_images_collapsed (dom : Dom) (evs : List Event)
    (tid imgId : Nat) (hN : uniqueIds dom) (ht : tid ∈ toggleIds dom)
    (him : imgId ∈ siblingImageIds tid dom) :
    getSrc (onHide (run (onReady dom) evs) tid) imgId = some COLLAPSED_SRC := by
  have hN' : uniqueIds (run (onReady dom) evs) :=
    uniqueIds_run (onReady dom) evs (uniqueIds_onReady dom hN)
  have him' : imgId ∈ siblingImageIds tid (run (onReady dom) evs) := by
    rw [sibIds_run, sibIds_onReady]
    exact him
  show getSrc (updateImage _ tid COLLAPSED_SRC) imgId = _
  rw [getSrc_updateImage _ tid COLLAPSED_SRC imgId hN', if_pos him']

theorem collapse_sets_sibling_images_collapsed_witness :
    uniqueIds testDom ∧ 1 ∈ toggleIds testDom ∧
      3 ∈ siblingImageIds 1 testDom ∧
      getSrc (onHide (run (onReady testDom) [Event.expandEv 1]) 1) 3 =
        some COLLAPSED_SRC :=
  ⟨by decide, by decide, by decide,
    collapse_sets_sibling_images_collapsed testDom [Event.expandEv 1] 1 3
      (by decide) (by decide) (by decide)⟩

/-- C3: after the document-ready initialization, every image associated
with a toggle present at load shows the collapsed icon URL, before any
expand/collapse event is processed. -/
theorem init_sets_sibling_images_collapsed (dom : Dom) (tid imgId : Nat)
    (hN : uniqueIds dom) (ht : tid ∈ toggleIds dom)
    (him : imgId ∈ siblingImageIds tid dom) :
    getSrc (onReady dom) imgId = some COLLAPSED_SRC :=
  getSrc_onReady dom tid imgId hN ht him

theorem init_sets_sibling_images_collapsed_witness :
    uniqueIds testDom ∧ 1 ∈ toggleIds testDom ∧
      3 ∈ siblingImageIds 1 testDom ∧
      getSrc (onReady testDom) 3 = some COLLAPSED_SRC :=
  ⟨by decide, by decide, by decide,
    init_sets_sibling_images_collapsed testDom 1 3 (by decide) (by decide)
      (by decide)⟩

/-- C4: for any finite sequence of expand/collapse events delivered to a
toggle after initialization, the associated image's `src` attribute is
determined solely by the last event: the expanded URL after an expand,
the collapsed URL after a collapse, and the collapsed URL when no event
occurred. -/
theorem last_event_determines_src (dom : Dom) (evs : List Event)
    (tid imgId : Nat) (hN : uniqueIds dom) (ht : tid ∈ toggleIds dom)
    (him : imgId ∈ siblingImageIds tid dom)
    (htgt : ∀ e ∈ evs, eventTarget e = tid) :
    getSrc (run (onReady dom) evs) imgId =
      some ((evs.getLast?.map eventSrc).getD COLLAPSED_SRC) := by
  rcases List.eq_nil_or_concat evs with rfl | ⟨l, e, rfl⟩
  · exact getSrc_onReady dom tid imgId hN ht him
  · simp only [List.concat_eq_append] at htgt ⊢
    have hrun : run (onReady dom) (l ++ [e]) = step (run (onReady dom) l) e := by
      simp [run, List.foldl_append]
    have hN' : uniqueIds (run (onReady dom) l) :=
      uniqueIds_run (onReady dom) l (uniqueIds_onReady dom hN)
    have him' : imgId ∈ siblingImageIds tid (run (onReady dom) l) := by
      rw [sibIds_run, sibIds_onReady]
      exact him
    have hte : eventTarget e = tid := htgt e (by simp)
    rw [hrun, step_eq, hte,
      getSrc_updateImage _ tid (eventSrc e) imgId hN', if_pos him']
    simp

theorem last_event_determines_src_witness :
    uniqueIds testDom ∧ 1 ∈ toggleIds testDom ∧
      3 ∈ siblingImageIds 1 testDom ∧
      (∀ e ∈ [Event.collapseEv 1, Event.expandEv 1], eventTarget e = 1) ∧
      getSrc (run (onReady testDom) [Event.collapseEv 1, Event.expandEv 1]) 3 =
        some ((([Event.collapseEv 1,
          Event.expandEv 1].getLast?).map eventSrc).getD COLLAPSED_SRC) :=
  ⟨by decide, by decide, by decide, by decide,
    last_event_determines_src testDom [Event.collapseEv 1, Event.expandEv 1]
      1 3 (by decide) (by decide) (by decide) (by decide)⟩

/-- C5: a toggle with no matching image among its siblings' subtrees
raises no error and causes no mutation: `updateImage` on it (hence its
per-toggle initialization action with the collapsed URL, and both event
handlers) returns the document unchanged. -/
theorem no_sibling_image_no_op (dom : Dom) (tid : Nat)
    (h : siblingImageIds tid dom = []) :
    (∀ src, updateImage dom tid src = dom) ∧ onShow dom tid = dom ∧
      onHide dom tid = dom := by
  have hupd : ∀ src, updateImage dom tid src = dom := fun src =>
    updGo_eq_self tid src dom h
  exact ⟨hupd, hupd EXPANDED_SRC, hupd COLLAPSED_SRC⟩

theorem no_sibling_image_no_op_witness :
    siblingImageIds 1 bareDom = [] ∧
      ((∀ src, updateImage bareDom 1 src = bareDom) ∧
        onShow bareDom 1 = bareDom ∧ onHide bareDom 1 = bareDom) :=
  ⟨by decide, no_sibling_image_no_op bareDom 1 (by decide)⟩

/-- C6 (counterexample): in `testDom` the expand handler on toggle 1
mutates the `src` of node 3, which bears class `update-image` and is a
child of sibling 2 but is not itself a direct sibling of the toggle —
so "every mutation targets an image that is a direct sibling" is false. -/
theorem direct_sibling_claim_cex :
    getSrc testDom 3 = some "old" ∧
      getSrc (onShow testDom 1) 3 = some EXPANDED_SRC ∧
      3 ∉ directSiblingIds 1 testDom :=
  ⟨rfl, rfl, by decide⟩

/-- C6 (amended): every mutation `updateImage` performs targets the
`src` attribute of an element matched by
`$(target).siblings().find(".update-image")` — an `update-image`-classed
descendant of a direct sibling of the toggle. -/
theorem mutations_target_sibling_descendant_images (dom : Dom) (tid : Nat)
    (src : String) (j : Nat) (key : String) (hN : uniqueIds dom)
    (hne : getAttr (updateImage dom tid src) j key ≠ getAttr dom j key) :
    key = "src" ∧ j ∈ siblingImageIds tid dom := by
  by_cases hk : key = "src"
  · subst hk
    refine ⟨rfl, ?_⟩
    by_contra hmem
    apply hne
    have hchar := getSrc_updateImage dom tid src j hN
    rw [if_neg hmem] at hchar
    exact hchar
  · exact absurd (getAttr_updateImage_ne dom tid src j key hk) hne

theorem mutations_target_sibling_descendant_images_witness :
    uniqueIds testDom ∧
      getAttr (updateImage testDom 1 "u") 3 "src" ≠ getAttr testDom 3 "src" ∧
      ("src" = "src" ∧ 3 ∈ siblingImageIds 1 testDom) :=
  ⟨by decide, by decide,
    mutations_target_sibling_descendant_images testDom 1 "u" 3 "src"
      (by decide) (by decide)⟩

/-- C7: processing one event performs only `src`-attribute mutations on
the elements matched by the handler's selector: every other attribute of
every element, and the `src` attribute of every unmatched element, is
unchanged. -/
theorem event_frame_property (dom : Dom) (e : Event) (j : Nat) (key : String)
    (hN : uniqueIds dom)
    (h : key ≠ "src" ∨ j ∉ siblingImageIds (eventTarget e) dom) :
    getAttr (step dom e) j key = getAttr dom j key := by
  rw [step_eq]
  rcases h with hk | hj
  · exact getAttr_updateImage_ne dom (eventTarget e) (eventSrc e) j key hk
  · by_cases hk : key = "src"
    · subst hk
      have hchar := getSrc_updateImage dom (eventTarget e) (eventSrc e) j hN
      rw [if_neg hj] at hchar
      exact hchar
    · exact getAttr_updateImage_ne dom (eventTarget e) (eventSrc e) j key hk

theorem event_frame_property_witness :
    (uniqueIds testDom ∧ ("alt" ≠ "src" ∨ 3 ∉ siblingImageIds 1 testDom) ∧
        getAttr (step testDom (Event.expandEv 1)) 3 "alt" =
          getAttr testDom 3 "alt") ∧
      (uniqueIds testDom ∧
        ("src" ≠ "src" ∨ 2 ∉ siblingImageIds 1 testDom) ∧
        getAttr (step testDom (Event.expandEv 1)) 2 "src" =
          getAttr testDom 2 "src") :=
  ⟨⟨by decide, Or.inl (by decide),
      event_frame_property testDom (Event.expandEv 1) 3 "alt" (by decide)
        (Or.inl (by decide))⟩,
    ⟨by decide, Or.inr (by decide),
      event_frame_property testDom (Event.expandEv 1) 2 "src" (by decide)
        (Or.inr (by decide))⟩⟩

/-- C8: the component is deterministic: two runs from equal initial
documents receiving equal event sequences produce identical documents;
behavior depends on nothing besides initialization and the two event
bindings. -/
theorem deterministic_runs (d1 d2 : Dom) (evs1 evs2 : List Event)
    (hd : d1 = d2) (he : evs1 = evs2) :
    run (onReady d1) evs1 = run (onReady d2) evs2 := by
  subst hd
  subst he
  rfl

theorem deterministic_runs_witness :
    testDom = testDom ∧ [Event.expandEv 1] = [Event.expandEv 1] ∧
      run (onReady testDom) [Event.expandEv 1] =
        run (onReady testDom) [Event.expandEv 1] :=
  ⟨rfl, rfl, deterministic_runs testDom testDom [Event.expandEv 1]
    [Event.expandEv 1] rfl rfl⟩

/-- C9: `updateImage` writes the given URL into the `src` attribute of
every `update-image`-classed descendant of every sibling of the target:
one event mutates all such images across all the siblings' subtrees. -/
theorem update_image_sets_all_sibling_images (dom : Dom) (tid : Nat)
    (src : String) (hN : uniqueIds dom) :
    ∀ j ∈ siblingImageIds tid dom,
      getSrc (updateImage dom tid src) j = some src := by
  intro j hj
  rw [getSrc_updateImage dom tid src j hN, if_pos hj]

theorem update_image_sets_all_sibling_images_witness :
    uniqueIds twoImgDom ∧ 3 ∈ siblingImageIds 1 twoImgDom ∧
      5 ∈ siblingImageIds 1 twoImgDom ∧
      getSrc (updateImage twoImgDom 1 "u") 3 = some "u" ∧
      getSrc (updateImage twoImgDom 1 "u") 5 = some "u" :=
  ⟨by decide, by decide, by decide,
    update_image_sets_all_sibling_images twoImgDom 1 "u" (by decide) 3
      (by decide),
    update_image_sets_all_sibling_images twoImgDom 1 "u" (by decide) 5
      (by decide)⟩

/-- C10: `updateImage` is idempotent — applying it twice with the same
target and URL equals applying it once — and hence delivering the same
event twice leaves the document identical to delivering it once. -/
theorem update_image_idempotent :
    ∀ (dom : Dom) (tid : Nat) (src : String) (e : Event),
      updateImage (updateImage dom tid src) tid src = updateImage dom tid src ∧
        step (step dom e) e = step dom e := by
  intro dom tid src e
  refine ⟨updGo_idem tid src dom, ?_⟩
  rw [step_eq, step_eq]
  exact updGo_idem (eventTarget e) (eventSrc e) dom
